import Mathlib

/-!
Verification development for the TigerCache embedded search engine.

The Rust sources are shallowly embedded as executable Lean definitions:

* Rust `HashMap`/`FxHashMap` values become association lists
  (`List (k × v)`); insertion replaces the binding in place, and a fresh
  key is appended.  Since every map operation in the source is keyed,
  and set/map iteration order in Rust hash containers is unspecified,
  the association-list order is a legitimate representative.
* Rust `HashSet`/`FxHashSet` values become duplicate-free lists in
  insertion order (`hashSetInsert`).
* `f64` score arithmetic is modelled by exact rationals (`ℚ`); every
  score produced by the ranker is a ratio of small integers, and every
  constant compared against (`0.2`, thresholds scaled by 1000) is
  modelled by the corresponding rational.
* Machine integers (`u32` counters, `usize` sizes) are modelled by
  `Nat`; `saturating_sub` is `Nat` subtraction, and `u32::saturating_add`
  saturates at `2^32 - 1` explicitly where the source uses it.
* `Instant::now()` is modelled by a logical clock (`Nat`) carried in
  the cache state and bumped on every operation, which preserves the
  relative order of last-access times that eviction sorts on.
* Unicode-aware character predicates (`char::is_alphanumeric`,
  `char::is_whitespace`, `to_lowercase`) are modelled by their Lean
  counterparts; all concrete inputs used in theorems are ASCII, where
  the two agree.
-/

namespace TigerCacheModel

/-! ### Association-list maps and insertion-order sets -/

/-- Lookup in an association list (model of `HashMap::get`). -/
def alistLookup {K V : Type} [DecidableEq K] : List (K × V) → K → Option V
  | [], _ => none
  | (k, v) :: rest, key => if k = key then some v else alistLookup rest key

/-- Insert or replace a binding (model of `HashMap::insert`). -/
def alistInsert {K V : Type} [DecidableEq K] : List (K × V) → K → V → List (K × V)
  | [], key, value => [(key, value)]
  | (k, v) :: rest, key, value =>
    if k = key then (key, value) :: rest else (k, v) :: alistInsert rest key value

/-- Remove a binding (model of `HashMap::remove`). -/
def alistErase {K V : Type} [DecidableEq K] : List (K × V) → K → List (K × V)
  | [], _ => []
  | (k, v) :: rest, key => if k = key then rest else (k, v) :: alistErase rest key

/-- Model of `map.entry(key).or_insert_with(Vec::new).push(item)`. -/
def alistPush {K V : Type} [DecidableEq K] : List (K × List V) → K → V → List (K × List V)
  | [], key, item => [(key, [item])]
  | (k, vs) :: rest, key, item =>
    if k = key then (key, vs ++ [item]) :: rest else (k, vs) :: alistPush rest key item

/-- Model of `*map.entry(key).or_insert(0) += amount` for score accumulation. -/
def alistAddTo [DecidableEq K] : List (K × ℚ) → K → ℚ → List (K × ℚ)
  | [], key, amount => [(key, amount)]
  | (k, v) :: rest, key, amount =>
    if k = key then (key, v + amount) :: rest else (k, v) :: alistAddTo rest key amount

/-- Model of `HashSet::insert`: keep first occurrences, in insertion order. -/
def hashSetInsert {α : Type} [DecidableEq α] (l : List α) (a : α) : List α :=
  if a ∈ l then l else l ++ [a]

/-- Collect a list into a duplicate-free list in first-occurrence order
(model of draining an iterator into a `HashSet`). -/
def hashSetOfList {α : Type} [DecidableEq α] (l : List α) : List α :=
  l.foldl hashSetInsert []




/-! ### Text normalisation, tokenisation and trigrams (src/trigram.rs) -/

/-- Model of `str::trim`: drop whitespace from both ends. -/
def trimChars (l : List Char) : List Char :=
  ((l.dropWhile Char.isWhitespace).reverse.dropWhile Char.isWhitespace).reverse

/-- Normalize text for indexing and searching (src/trigram.rs
`normalize_text`): keep alphanumerics and whitespace, lowercase, trim. -/
def normalize_text (text : String) : String :=
  ⟨trimChars ((text.data.filter fun c => c.isAlphanum || c.isWhitespace).map Char.toLower)⟩

/-- Split on whitespace discarding empty fragments (model of
`str::split_whitespace`, used by `extract_tokens`). -/
def splitWhitespaceChars (l : List Char) : List String :=
  ((l.splitOnP Char.isWhitespace).map fun cs => (⟨cs⟩ : String)).filter fun s => s ≠ ""

/-- Extract tokens (words) from text (src/trigram.rs `extract_tokens`). -/
def extract_tokens (text : String) : List String :=
  splitWhitespaceChars (normalize_text text).data

/-- Sliding windows of three characters (the loop body of
`generate_trigrams`). -/
def windows3 : List Char → List String
  | a :: b :: c :: rest => (⟨[a, b, c]⟩ : String) :: windows3 (b :: c :: rest)
  | _ => []

/-- The trigram windows generated for a text before set de-duplication:
normalise, pad with two leading and one trailing sentinel, slide a
window of three (src/trigram.rs `generate_trigrams`, lines 8-23). -/
def generate_trigrams_list (text : String) : List String :=
  let normalized := normalize_text text
  if normalized = "" then []
  else windows3 ("$$" ++ normalized ++ "$").data

/-- Generate trigrams from a string (src/trigram.rs `generate_trigrams`):
the windows are inserted into a `HashSet`, so duplicates collapse. -/
def generate_trigrams (text : String) : List String :=
  hashSetOfList (generate_trigrams_list text)


/-! ### String interner (src/intern.rs) -/

/-- String interning system (src/intern.rs `StringInterner`).  `StringId`
values are modelled by `Nat`; in the source they are `u32` newtypes. -/
structure StringInterner where
  string_to_id : List (String × Nat)
  id_to_string : List (Nat × String)
  next_id : Nat

/-- Model of `StringInterner::new`. -/
def StringInterner.new : StringInterner :=
  { string_to_id := [], id_to_string := [], next_id := 0 }

/-- Intern a string and return its ID, reusing existing IDs for duplicate
strings (src/intern.rs lines 39-52). -/
def StringInterner.intern (st : StringInterner) (s : String) : Nat × StringInterner :=
  match alistLookup st.string_to_id s with
  | some id => (id, st)
  | none =>
    (st.next_id,
      { string_to_id := alistInsert st.string_to_id s st.next_id,
        id_to_string := alistInsert st.id_to_string st.next_id s,
        next_id := st.next_id + 1 })

/-- Get the string for a given ID (src/intern.rs lines 55-57). -/
def StringInterner.get (st : StringInterner) (id : Nat) : Option String :=
  alistLookup st.id_to_string id

/-- Get the ID for a given string (src/intern.rs lines 60-62). -/
def StringInterner.get_id (st : StringInterner) (s : String) : Option Nat :=
  alistLookup st.string_to_id s

/-- Model of `StringInterner::clear`. -/
def StringInterner.clear (_ : StringInterner) : StringInterner :=
  StringInterner.new

/-- Well-formedness of an interner state: the string-to-id map is inverted
by the id-to-string map.  Every state reachable from
`StringInterner.new` satisfies this. -/
def InternerWF (st : StringInterner) : Prop :=
  ∀ s id, alistLookup st.string_to_id s = some id →
    alistLookup st.id_to_string id = some s


/-! ### Documents (src/document.rs) -/

/-- Model of `serde_json::Value` as stored in document fields.  Numbers
are modelled by integers; the source stores arbitrary JSON numbers, but
no claim depends on non-integer numerics. -/
inductive JsonValue where
  | str (s : String)
  | num (n : Int)
  | boolean (b : Bool)
  | null
  | arr (xs : List JsonValue)
  | obj (fs : List (String × JsonValue))

/-- Model of `serde_json::Value::is_object`. -/
def JsonValue.isObject : JsonValue → Bool
  | .obj _ => true
  | _ => false

/-- Model of `serde_json::Value::is_array`. -/
def JsonValue.isArray : JsonValue → Bool
  | .arr _ => true
  | _ => false

/-- JSON escaping of one character inside a string literal, following
the `serde_json` serializer: backslash and quote are escaped, control
characters get their short escapes or a `\u00XX` form. -/
def jsonEscapeChar (c : Char) : String :=
  if c = '"' then "\\\""
  else if c = '\\' then "\\\\"
  else if c = '\x08' then "\\b"
  else if c = '\x09' then "\\t"
  else if c = '\x0a' then "\\n"
  else if c = '\x0c' then "\\f"
  else if c = '\x0d' then "\\r"
  else if c.toNat < 32 then
    "\\u00" ++ String.mk [Nat.digitChar (c.toNat / 16), Nat.digitChar (c.toNat % 16)]
  else String.mk [c]

/-- JSON string literal: quote and escape (the `serde_json` string
serialization). -/
def jsonQuote (s : String) : String :=
  "\"" ++ String.join (s.data.map jsonEscapeChar) ++ "\""

mutual

/-- Model of `serde_json::Value::to_string`, the JSON serialization
used by `Document::get_text_field` and `get_all_text_fields` for every
non-string value. -/
def JsonValue.jsonString : JsonValue → String
  | .str s => jsonQuote s
  | .num n => toString n
  | .boolean b => cond b "true" "false"
  | .null => "null"
  | .arr xs => "[" ++ JsonValue.jsonStringList xs ++ "]"
  | .obj fs => "\x7b" ++ JsonValue.jsonStringObj fs ++ "\x7d"

/-- Comma-separated serialization of a JSON array body. -/
def JsonValue.jsonStringList : List JsonValue → String
  | [] => ""
  | [x] => JsonValue.jsonString x
  | x :: y :: rest =>
    JsonValue.jsonString x ++ "," ++ JsonValue.jsonStringList (y :: rest)

/-- Comma-separated serialization of a JSON object body. -/
def JsonValue.jsonStringObj : List (String × JsonValue) → String
  | [] => ""
  | [(k, v)] => jsonQuote k ++ ":" ++ JsonValue.jsonString v
  | (k, v) :: p :: rest =>
    jsonQuote k ++ ":" ++ JsonValue.jsonString v ++ "," ++
      JsonValue.jsonStringObj (p :: rest)

end

/-- A document that can be indexed and searched (src/document.rs).
Field insertion order is kept, matching a `HashMap` whose iteration
order is unspecified. -/
structure Document where
  id : String
  fields : List (String × JsonValue)

/-- Get a field value as a string (src/document.rs `get_text_field`,
lines 35-44): strings are returned as-is, any other value is converted
via `to_string`. -/
def Document.get_text_field (d : Document) (name : String) : Option String :=
  (alistLookup d.fields name).map fun value =>
    match value with
    | .str s => s
    | v => v.jsonString

/-- Get all text fields (src/document.rs `get_all_text_fields`, lines
47-61): strings as-is, simple non-string values via `to_string`,
objects and arrays skipped. -/
def Document.get_all_text_fields (d : Document) : List String :=
  d.fields.filterMap fun p =>
    match p.2 with
    | .str s => some s
    | v => if v.isObject || v.isArray then none else some v.jsonString

/-! ### Errors (src/error.rs) -/

/-- Model of `TigerCacheError`; only the variants produced by the
embedded operations are carried. -/
inductive TigerCacheError where
  | documentNotFound (id : String)
deriving DecidableEq

/-! ### Index core (src/index.rs) -/

/-- The main index structure (src/index.rs `Index`). -/
structure Index where
  documents : List (Nat × Document)
  inverted_index : List (Nat × List Nat)
  trigram_index : List (Nat × List Nat)
  interner : StringInterner
  indexed_fields : List String

/-- Model of `Index::new`. -/
def Index.new : Index :=
  { documents := [], inverted_index := [], trigram_index := [],
    interner := StringInterner.new, indexed_fields := [] }

/-- Model of `Index::set_indexed_fields`. -/
def Index.set_indexed_fields (idx : Index) (fields : List String) : Index :=
  { idx with indexed_fields := fields }

/-- The set of unique tokens extracted from a document at ingest time
(src/index.rs `add_document`, lines 52-71): all text fields when no
indexed fields are configured, otherwise only the configured fields. -/
def Index.tokensOf (idx : Index) (document : Document) : List String :=
  if idx.indexed_fields = [] then
    hashSetOfList (document.get_all_text_fields.flatMap extract_tokens)
  else
    hashSetOfList
      ((idx.indexed_fields.filterMap document.get_text_field).flatMap extract_tokens)

/-- Posting updates for one token (the body of the token loop in
src/index.rs `add_document`, lines 74-94): intern the token, append the
doc id to its inverted posting, and append the token id to the trigram
posting of each of its trigrams. -/
def Index.indexToken (doc_id : Nat)
    (st : StringInterner × List (Nat × List Nat) × List (Nat × List Nat))
    (token : String) :
    StringInterner × List (Nat × List Nat) × List (Nat × List Nat) :=
  let r := st.1.intern token
  let token_id := r.1
  let inverted := alistPush st.2.1 token_id doc_id
  let final := (generate_trigrams token).foldl
    (fun (p : StringInterner × List (Nat × List Nat)) trigram =>
      let r2 := p.1.intern trigram
      (r2.2, alistPush p.2 r2.1 token_id))
    (r.2, st.2.2)
  (final.1, inverted, final.2)

/-- Add a document to the index (src/index.rs `add_document`, lines
48-100).  The source returns `Ok(())` unconditionally, so the model
returns the updated index directly. -/
def Index.add_document (idx : Index) (document : Document) : Index :=
  let r := idx.interner.intern document.id
  let doc_id := r.1
  let all_tokens := idx.tokensOf document
  let st := all_tokens.foldl (Index.indexToken doc_id)
    (r.2, idx.inverted_index, idx.trigram_index)
  { idx with
    interner := st.1,
    inverted_index := st.2.1,
    trigram_index := st.2.2,
    documents := alistInsert idx.documents doc_id document }

/-- Remove a document from the index (src/index.rs `remove_document`,
lines 176-202): fail with `DocumentNotFound` when the id was never
interned or has no stored document; otherwise drop the id from every
inverted posting, remove the document, and drop postings that became
empty.  The trigram index is deliberately left untouched. -/
def Index.remove_document (idx : Index) (doc_id : String) :
    Except TigerCacheError Index :=
  match idx.interner.get_id doc_id with
  | none => .error (.documentNotFound doc_id)
  | some doc_id_interned =>
    if (alistLookup idx.documents doc_id_interned).isSome then
      let inverted := idx.inverted_index.map fun p =>
        (p.1, p.2.filter fun id => id ≠ doc_id_interned)
      .ok { idx with
        documents := alistErase idx.documents doc_id_interned,
        inverted_index := inverted.filter fun p => !p.2.isEmpty }
    else
      .error (.documentNotFound doc_id)

/-- Get a document by ID (src/index.rs `get_document`, lines 205-208). -/
def Index.get_document (idx : Index) (doc_id : String) : Option Document :=
  (idx.interner.get_id doc_id).bind fun id => alistLookup idx.documents id

/-- Get the number of documents (src/index.rs `document_count`). -/
def Index.document_count (idx : Index) : Nat :=
  idx.documents.length

/-- Find candidate tokens for a search query using trigram matching
(src/index.rs `find_candidate_tokens`, lines 216-239). -/
def Index.find_candidate_tokens (idx : Index) (query : String) : List String :=
  let normalized_query := normalize_text query
  let query_tokens := extract_tokens normalized_query
  query_tokens.foldl
    (fun acc query_token =>
      (generate_trigrams query_token).foldl
        (fun acc trigram =>
          match idx.interner.get_id trigram with
          | some trigram_id =>
            match alistLookup idx.trigram_index trigram_id with
            | some token_ids =>
              token_ids.foldl
                (fun acc token_id =>
                  match idx.interner.get token_id with
                  | some token => hashSetInsert acc token
                  | none => acc)
                acc
            | none => acc
          | none => acc)
        acc)
    []

/-- Get document IDs containing a specific token (src/index.rs
`get_documents_for_token`, lines 242-251). -/
def Index.get_documents_for_token (idx : Index) (token : String) : List String :=
  match idx.interner.get_id token with
  | some token_id =>
    match alistLookup idx.inverted_index token_id with
    | some doc_ids => doc_ids.filterMap fun doc_id => idx.interner.get doc_id
    | none => []
  | none => []

/-- Model of `Index::clear`. -/
def Index.clear (idx : Index) : Index :=
  { idx with documents := [], inverted_index := [], trigram_index := [],
             interner := idx.interner.clear }

/-! ### Levenshtein distance (the `levenshtein` crate used by src/search.rs) -/

/-- One cell-by-cell pass of the single-row dynamic program: `diag` is
the previous row entry one column back, `left` the entry just computed,
and the remaining previous row runs alongside the remaining characters. -/
def levRowAux (x : Char) : List Char → List Nat → Nat → Nat → List Nat
  | y :: ys, p :: ps, diag, left =>
    let cost := if x = y then 0 else 1
    let cur := min (diag + cost) (min (p + 1) (left + 1))
    cur :: levRowAux x ys ps p cur
  | _, _, _, _ => []

/-- Advance the dynamic-programming row by one character of the first
string. -/
def levRow (x : Char) (ys : List Char) (prev : List Nat) : List Nat :=
  match prev with
  | [] => []
  | d :: rest => (d + 1) :: levRowAux x ys rest d (d + 1)

/-- Levenshtein edit distance, computed by the classic single-row
dynamic program (the algorithm of the `levenshtein` crate). -/
def levenshtein (a b : String) : Nat :=
  let ys := b.data
  (a.data.foldl (fun row x => levRow x ys row) (List.range (ys.length + 1))).getLastD 0

/-! ### Search (src/search.rs) -/

/-- Search configuration options (src/search.rs `SearchOptions`):
`score_threshold` is a `u32` scaled by 1000 for hash compatibility. -/
structure SearchOptions where
  max_distance : Nat
  score_threshold : Nat
  limit : Nat
deriving DecidableEq

/-- Model of `SearchOptions::default()`. -/
def SearchOptions.default : SearchOptions :=
  { max_distance := 2, score_threshold := 0, limit := 100 }

/-- Internal search options (src/search.rs `SearchOptionsInternal`) with
the threshold converted to a rational. -/
structure SearchOptionsInternal where
  max_distance : Nat
  score_threshold : ℚ
  limit : Nat

/-- Model of `From<SearchOptions> for SearchOptionsInternal`
(src/search.rs lines 107-115): the integer threshold is divided by
1000. -/
def SearchOptionsInternal.ofOptions (o : SearchOptions) : SearchOptionsInternal :=
  { max_distance := o.max_distance,
    score_threshold := (o.score_threshold : ℚ) / 1000,
    limit := o.limit }

/-- Search result with document and score (src/search.rs
`SearchResult`). -/
structure SearchResult where
  document : Document
  score : ℚ
  matched_fields : List String

/-- The comparator used to sort results (src/search.rs lines 210-214):
score descending, ties broken by document id ascending. -/
def resultOrder (a b : SearchResult) : Prop :=
  b.score < a.score ∨ (a.score = b.score ∧ a.document.id ≤ b.document.id)

instance : DecidableRel resultOrder := fun a b => by
  unfold resultOrder; infer_instance

/-- The candidate-scoring loop body of `search_internal` (src/search.rs
lines 134-156): score a candidate by trigram overlap against one query
token, keep it when the overlap ratio reaches 0.2 and the edit distance
is within `max_distance + 1`, and record it keyed by candidate string. -/
def scoreCandidate (options : SearchOptionsInternal)
    (query_token : String) (query_trigrams : List String)
    (cs : List (String × Nat × ℚ)) (candidate : String) :
    List (String × Nat × ℚ) :=
  let candidate_trigrams := generate_trigrams candidate
  let overlap := query_trigrams.countP fun t => candidate_trigrams.contains t
  let total_trigrams := max query_trigrams.length candidate_trigrams.length
  if 0 < total_trigrams then
    let trigram_score : ℚ := (overlap : ℚ) / (total_trigrams : ℚ)
    if (1 : ℚ) / 5 ≤ trigram_score then
      let distance := levenshtein query_token candidate
      if distance ≤ options.max_distance + 1 then
        alistInsert cs candidate (distance, trigram_score)
      else cs
    else cs
  else cs

/-- The result-construction stage of `search_internal` (src/search.rs
lines 194-207): drop documents whose accumulated score is strictly
below the threshold and attach the stored documents; `matched_fields`
is left empty. -/
def thresholdFilter (idx : Index) (options : SearchOptionsInternal)
    (document_scores : List (String × ℚ)) : List SearchResult :=
  document_scores.filterMap fun p =>
    if p.2 < options.score_threshold then none
    else (idx.get_document p.1).map fun doc =>
      { document := doc, score := p.2, matched_fields := ([] : List String) }

/-- The sort-and-truncate stage of `search_internal` (src/search.rs
lines 209-220).  The source's stable `sort_by` is modelled by insertion
sort with the same comparator; since accumulated scores are keyed by
distinct doc ids, every comparator sort produces the same list. -/
def rankAndTruncate (options : SearchOptionsInternal)
    (results : List SearchResult) : List SearchResult :=
  let sorted := List.insertionSort resultOrder results
  if options.limit < sorted.length then sorted.take options.limit else sorted

/-- Internal search (src/search.rs `Index::search_internal`, lines
126-222): candidate generation with trigram-overlap scoring, a
Levenshtein filter, per-document score accumulation, then the threshold
filter and the sort/truncate stage. -/
def Index.search_internal (idx : Index) (query : String)
    (options : SearchOptionsInternal) : List SearchResult :=
  let query_tokens := extract_tokens query
  if query_tokens = [] then []
  else
    let candidate_scores := query_tokens.foldl
      (fun cs query_token =>
        let query_trigrams := generate_trigrams query_token
        let candidates := idx.find_candidate_tokens query_token
        candidates.foldl (scoreCandidate options query_token query_trigrams) cs)
      []
    let filtered_tokens := candidate_scores.filter fun p =>
      p.2.1 ≤ options.max_distance
    let document_scores := filtered_tokens.foldl
      (fun ds p =>
        let doc_ids := idx.get_documents_for_token p.1
        let distance_score : ℚ := 1 / ((p.2.1 : ℚ) + 1)
        let combined_score := distance_score * (1 + p.2.2)
        let token_score := if p.2.1 = 0 then combined_score * 5 else combined_score
        doc_ids.foldl (fun ds doc_id => alistAddTo ds doc_id token_score) ds)
      []
    rankAndTruncate options (thresholdFilter idx options document_scores)

/-- Public search entry point (src/search.rs `Index::search`, lines
119-123).  The source returns `Result` but never fails. -/
def Index.search (idx : Index) (query : String)
    (options : Option SearchOptions) : List SearchResult :=
  idx.search_internal query
    (SearchOptionsInternal.ofOptions (options.getD SearchOptions.default))

/-! ### Size-bounded LRU cache (src/cache/lru_cache.rs) -/

/-- Saturation bound of the `u32` reference counter. -/
def u32Max : Nat := 4294967295

/-- LRU cache entry (src/cache/lru_cache.rs `LruEntry`).  The key field
of the source struct is redundant with the map key and omitted. -/
structure LruEntry (V : Type) where
  value : V
  size : Nat
  lastAccess : Nat
  refCount : Nat
deriving DecidableEq

/-- LRU cache with size-based eviction (src/cache/lru_cache.rs
`LruCache`).  `clock` models `Instant::now()`: it grows on every
operation, so later accesses carry strictly larger timestamps. -/
structure LruCache (K V : Type) where
  entries : List (K × LruEntry V)
  maxSize : Nat
  currentSize : Nat
  hits : Nat
  misses : Nat
  clock : Nat

/-- Model of `LruCache::new`. -/
def LruCache.new {K V : Type} (max_size : Nat) : LruCache K V :=
  { entries := [], maxSize := max_size, currentSize := 0,
    hits := 0, misses := 0, clock := 0 }

/-- Get a value from the cache (src/cache/lru_cache.rs `get`, lines
59-90): on a hit, refresh the access time, increment the reference
count with `u32` saturation, count the hit, and return a clone of the
value. -/
def LruCache.get {K V : Type} [DecidableEq K] (c : LruCache K V) (key : K) :
    Option V × LruCache K V :=
  match alistLookup c.entries key with
  | some entry =>
    (some entry.value,
      { c with
        entries := alistInsert c.entries key
          { entry with lastAccess := c.clock,
                       refCount := min (entry.refCount + 1) u32Max },
        hits := c.hits + 1,
        clock := c.clock + 1 })
  | none =>
    (none, { c with misses := c.misses + 1, clock := c.clock + 1 })

/-- The comparator `evict_entries` sorts by (src/cache/lru_cache.rs
line 224): ascending last-access time, oldest first. -/
def lastAccessLe {K V : Type} (a b : K × LruEntry V) : Prop :=
  a.2.lastAccess ≤ b.2.lastAccess

instance {K V : Type} : DecidableRel (lastAccessLe (K := K) (V := V)) :=
  fun a b => Nat.decLe a.2.lastAccess b.2.lastAccess

instance {K V : Type} : IsTrans (K × LruEntry V) lastAccessLe :=
  ⟨fun _ _ _ => Nat.le_trans⟩

instance {K V : Type} : IsTotal (K × LruEntry V) lastAccessLe :=
  ⟨fun a b => Nat.le_total a.2.lastAccess b.2.lastAccess⟩

/-- The eviction scan (src/cache/lru_cache.rs `evict_entries`, lines
227-242): walk entries oldest-first, skip entries with a non-zero
reference count, and collect keys until the freed size reaches the
required amount. -/
def collectEvict {K V : Type} :
    List (K × LruEntry V) → Nat → Nat → List K
  | [], _, _ => []
  | (k, e) :: rest, need, freed =>
    if 0 < e.refCount then collectEvict rest need freed
    else if need ≤ freed + e.size then [k]
    else k :: collectEvict rest need (freed + e.size)

/-- The removal loop of `evict_entries` (src/cache/lru_cache.rs lines
245-249): remove one collected key and subtract its entry size. -/
def evictRemoveStep {K V : Type} [DecidableEq K]
    (st : List (K × LruEntry V) × Nat) (k : K) :
    List (K × LruEntry V) × Nat :=
  match alistLookup st.1 k with
  | some entry => (alistErase st.1 k, st.2 - entry.size)
  | none => st

/-- Evict entries to make room for a new entry (src/cache/lru_cache.rs
`evict_entries`, lines 207-250): free `current - (max - needed)` bytes
by removing pin-count-zero entries oldest-first by last access. -/
def evictEntries {K V : Type} [DecidableEq K]
    (entries : List (K × LruEntry V)) (current max needed : Nat) :
    List (K × LruEntry V) × Nat :=
  let target_size := max - needed
  let size_to_free := current - target_size
  if size_to_free = 0 then (entries, current)
  else
    let sorted := List.insertionSort lastAccessLe entries
    let keys_to_remove := collectEvict sorted size_to_free 0
    keys_to_remove.foldl evictRemoveStep (entries, current)

/-- Put a value in the cache (src/cache/lru_cache.rs `put`, lines
93-134): replace in place when the key exists, otherwise evict when the
new total would exceed the budget and insert the new entry regardless
of how much eviction actually freed. -/
def LruCache.put {K V : Type} [DecidableEq K] (c : LruCache K V)
    (key : K) (value : V) (size : Nat) : LruCache K V :=
  match alistLookup c.entries key with
  | some entry =>
    { c with
      entries := alistInsert c.entries key
        { entry with value := value, size := size, lastAccess := c.clock },
      currentSize := c.currentSize - entry.size + size,
      clock := c.clock + 1 }
  | none =>
    let st :=
      if c.maxSize < c.currentSize + size then
        evictEntries c.entries c.currentSize c.maxSize size
      else (c.entries, c.currentSize)
    { c with
      entries := st.1 ++ [(key,
        { value := value, size := size, lastAccess := c.clock, refCount := 0 })],
      currentSize := st.2 + size,
      clock := c.clock + 1 }

/-- Remove a value from the cache (src/cache/lru_cache.rs `remove`,
lines 137-163). -/
def LruCache.remove {K V : Type} [DecidableEq K] (c : LruCache K V)
    (key : K) : Option V × LruCache K V :=
  match alistLookup c.entries key with
  | some entry =>
    (some entry.value,
      { c with entries := alistErase c.entries key,
               currentSize := c.currentSize - entry.size })
  | none => (none, c)

/-- Clear the cache (src/cache/lru_cache.rs `clear`, lines 166-172). -/
def LruCache.clear {K V : Type} (c : LruCache K V) : LruCache K V :=
  { c with entries := [], currentSize := 0 }

/-- The public operations of the LRU cache, for statements quantifying
over an arbitrary operation. -/
inductive LruOp (K V : Type) where
  | opGet (k : K)
  | opPut (k : K) (v : V) (size : Nat)
  | opRemove (k : K)
  | opClear
deriving DecidableEq

/-- Apply one public cache operation. -/
def LruCache.step {K V : Type} [DecidableEq K] (c : LruCache K V) :
    LruOp K V → LruCache K V
  | .opGet k => (c.get k).2
  | .opPut k v size => c.put k v size
  | .opRemove k => (c.remove k).2
  | .opClear => c.clear

/-- No entry of the cache is pinned (all reference counts are zero). -/
def LruCache.noPinned {K V : Type} (c : LruCache K V) : Prop :=
  ∀ p ∈ c.entries, p.2.refCount = 0

/-! ### Query cache (src/cache/query_cache.rs) -/

/-- Query key for cache lookups (src/cache/query_cache.rs `QueryKey`). -/
structure QueryKey where
  query : String
  options : Option SearchOptions
deriving DecidableEq

/-- Byte size of a `Vec<SearchResult>` header on the 64-bit target
(`std::mem::size_of`). -/
def sizeOfVecSearchResult : Nat := 24

/-- Byte size of the `SearchResult` struct header on the 64-bit target. -/
def sizeOfSearchResultStruct : Nat := 104

/-- Byte size of the `Document` struct header on the 64-bit target. -/
def sizeOfDocumentStruct : Nat := 72

/-- Estimate the size of a document (src/cache/query_cache.rs
`estimate_document_size`).  The source matches on a three-variant
`FieldValue` (text, number, boolean); values outside those variants
contribute no bytes. -/
def estimate_document_size (d : Document) : Nat :=
  sizeOfDocumentStruct + d.id.length +
    d.fields.foldl
      (fun acc p =>
        acc + p.1.length +
          match p.2 with
          | .str s => s.length
          | .num _ => 8
          | .boolean _ => 1
          | _ => 0)
      0

/-- Estimate the size of search results (src/cache/query_cache.rs
`estimate_results_size`). -/
def estimate_results_size (rs : List SearchResult) : Nat :=
  sizeOfVecSearchResult +
    rs.foldl (fun acc r => acc + sizeOfSearchResultStruct +
      estimate_document_size r.document) 0

/-- Query cache (src/cache/query_cache.rs `QueryCache`): an LRU cache
from `(query, options)` to result lists. -/
structure QueryCache where
  cache : LruCache QueryKey (List SearchResult)

/-- Model of `QueryCache::new`. -/
def QueryCache.new (max_size : Nat) : QueryCache :=
  { cache := LruCache.new max_size }

/-- Get search results from the cache (src/cache/query_cache.rs `get`). -/
def QueryCache.get (qc : QueryCache) (query : String)
    (options : Option SearchOptions) :
    Option (List SearchResult) × QueryCache :=
  let r := qc.cache.get { query := query, options := options }
  (r.1, { cache := r.2 })

/-- Put search results in the cache (src/cache/query_cache.rs `put`). -/
def QueryCache.put (qc : QueryCache) (query : String)
    (options : Option SearchOptions) (results : List SearchResult) :
    QueryCache :=
  { cache := qc.cache.put { query := query, options := options } results
      (estimate_results_size results) }

/-! ### Facade (src/tiger_cache.rs) -/

/-- The TigerCache facade (src/tiger_cache.rs `TigerCache`), restricted
to the state that determines `search` results: the in-memory index and
the optional query cache.  The storage engine, document cache, index
cache and memory manager are omitted: `search` consults only the query
cache and the in-memory index, and `add_document` / `remove_document`
mutate the omitted components without reading them. -/
structure TigerCache where
  index : Index
  query_cache : Option QueryCache

/-- Model of `TigerCache::new`: no storage path, hence no caches. -/
def TigerCache.new : TigerCache :=
  { index := Index.new, query_cache := none }

/-- A freshly opened storage-backed instance (src/tiger_cache.rs
`with_config`, lines 61-104, with a configured path): the query cache
receives a tenth of the configured cache budget. -/
def TigerCache.withStorage (cache_size : Nat) : TigerCache :=
  { index := Index.new, query_cache := some (QueryCache.new (cache_size / 10)) }

/-- Add a document (src/tiger_cache.rs `add_document`, lines 159-181):
update the in-memory index; the storage write and document-cache update
touch omitted components.  The query cache is not touched. -/
def TigerCache.add_document (tc : TigerCache) (document : Document) : TigerCache :=
  { tc with index := tc.index.add_document document }

/-- Remove a document (src/tiger_cache.rs `remove_document`, lines
215-231): remove from the in-memory index, propagating its error.  The
query cache is not touched. -/
def TigerCache.remove_document (tc : TigerCache) (doc_id : String) :
    Except TigerCacheError TigerCache :=
  (tc.index.remove_document doc_id).map fun i => { tc with index := i }

/-- Search (src/tiger_cache.rs `search`, lines 292-309): return a cached
result when the query cache holds one, otherwise run the ranker and
cache its result. -/
def TigerCache.search (tc : TigerCache) (query : String)
    (options : Option SearchOptions) : List SearchResult × TigerCache :=
  match tc.query_cache with
  | some cache =>
    let r := cache.get query options
    match r.1 with
    | some results => (results, { tc with query_cache := some r.2 })
    | none =>
      let results := tc.index.search query options
      (results, { tc with query_cache := some (r.2.put query options results) })
  | none => (tc.index.search query options, tc)

/-! ### Concrete inputs used by witnesses and counterexamples -/

/-- Document with id `x` whose only field holds the text `apple`. -/
def docXApple : Document := { id := "x", fields := [("f", .str "apple")] }

/-- Document with id `x` whose only field holds the text `banana`. -/
def docXBanana : Document := { id := "x", fields := [("f", .str "banana")] }

/-- Document whose only field value is JSON `null`. -/
def docNull : Document := { id := "d", fields := [("x", .null)] }

/-- Document with id `d1` and title `apple`. -/
def docD1 : Document := { id := "d1", fields := [("title", .str "apple")] }

/-- Document mixing a string field with an array field. -/
def docMixed : Document :=
  { id := "m", fields := [("a", .arr []), ("t", .str "hi")] }

/-- Whether the index stores a document under this external id: the id
is interned and the document map holds a binding for the interned id
(the two conditions checked by `Index::remove_document`). -/
def Index.docPresent (idx : Index) (doc_id : String) : Bool :=
  match idx.interner.get_id doc_id with
  | some id => (alistLookup idx.documents id).isSome
  | none => false

/-- Modelled from the spec: the field values said to contribute tokens
are the strings plus scalar-to-string coercions of numbers and
booleans (spec sections 3 and 9; the wording behind claim C7).  Null,
array and object values contribute nothing under this reading. -/
def specScalarText : JsonValue → Option String
  | .str s => some s
  | .num n => some (toString n)
  | .boolean b => some (cond b "true" "false")
  | _ => none

/-- The amended contribution map: the code additionally coerces JSON
null to the text `null`, which then contributes a token. -/
def specScalarTextAmended : JsonValue → Option String
  | .str s => some s
  | .num n => some (toString n)
  | .boolean b => some (cond b "true" "false")
  | .null => some "null"
  | _ => none

/-- Index holding only the document `docXApple`. -/
def idxApple : Index := Index.new.add_document docXApple

/-- The index after successfully removing `x` from `idxApple` (helper
for concrete traces; the removal does succeed there). -/
def idxAppleRemoved : Index :=
  match idxApple.remove_document "x" with
  | .ok i => i
  | .error _ => idxApple

/-- Cache trace: three puts of size 8 into a byte budget of 10, with a
read pinning each entry before the next put. -/
def lruTrace : LruCache String Unit :=
  let c0 : LruCache String Unit := LruCache.new 10
  let c1 := c0.put "a" () 8
  let c2 := (c1.get "a").2
  let c3 := c2.put "b" () 8
  let c4 := (c3.get "b").2
  c4.put "c" () 8

/-- A cache with one pinned entry of size 8 and plenty of headroom. -/
def lruPinned : LruCache String Unit :=
  (((LruCache.new 100).put "a" () 8).get "a").2

/-- A cache with two unpinned entries of size 4 (entry `a` older than
entry `b`) in a byte budget of 10. -/
def lruTwo : LruCache String Unit :=
  ((LruCache.new 10).put "a" () 4).put "b" () 4

/-- Total byte size of the entries with pin count zero (the bytes that
eviction is allowed to reclaim). -/
def unpinnedSize {K V : Type} (l : List (K × LruEntry V)) : Nat :=
  (l.map fun p => if p.2.refCount = 0 then p.2.size else 0).sum

/-- Total byte size of the entries of `m` selected by a key list (0 for
keys without a binding). -/
def sizeOfKeys {K V : Type} [DecidableEq K]
    (m : List (K × LruEntry V)) : List K → Nat
  | [] => 0
  | k :: rest =>
    (match alistLookup m k with
      | some e => e.size
      | none => 0) + sizeOfKeys m rest

/-- Facade trace, step 0: a storage-backed instance whose query cache
has a large budget. -/
def tcTrace0 : TigerCache := TigerCache.withStorage 10000000

/-- Facade trace, step 1: search `apple` on the empty instance (caches
the empty result list). -/
def tcStep1 : List SearchResult × TigerCache := tcTrace0.search "apple" none

/-- Facade trace, step 2: add the document `d1` titled `apple`. -/
def tcTrace2 : TigerCache := tcStep1.2.add_document docD1

/-- Facade trace, step 3: search `apple` again after the mutation. -/
def tcStep3 : List SearchResult × TigerCache := tcTrace2.search "apple" none

/-- The single result returned for the query `apple` on `idxApple`. -/
def resX : SearchResult :=
  { document := docXApple, score := 10, matched_fields := [] }

instance : IsTrans SearchResult resultOrder := by
  constructor
  intro a b c hab hbc
  rcases hab with h1 | ⟨h1, h2⟩ <;> rcases hbc with h3 | ⟨h3, h4⟩
  · exact Or.inl (h3.trans h1)
  · exact Or.inl (h3 ▸ h1)
  · exact Or.inl (h1 ▸ h3)
  · exact Or.inr ⟨h1.trans h3, h2.trans h4⟩

instance : IsTotal SearchResult resultOrder := by
  constructor
  intro a b
  rcases lt_trichotomy a.score b.score with h | h | h
  · exact Or.inr (Or.inl h)
  · rcases le_total a.document.id b.document.id with h2 | h2
    · exact Or.inl (Or.inr ⟨h, h2⟩)
    · exact Or.inr (Or.inr ⟨h.symm, h2⟩)
  · exact Or.inl (Or.inl h)

/-! ### Helper lemmas -/

theorem length_hashSetInsert {α : Type} [DecidableEq α] (l : List α) (a : α) :
    (hashSetInsert l a).length ≤ l.length + 1 := by
  unfold hashSetInsert
  split <;> simp

theorem length_foldl_hashSetInsert {α : Type} [DecidableEq α] :
    ∀ (l acc : List α), (l.foldl hashSetInsert acc).length ≤ acc.length + l.length
  | [], acc => by simp
  | a :: rest, acc => by
    have h1 := length_foldl_hashSetInsert rest (hashSetInsert acc a)
    have h2 := length_hashSetInsert acc a
    simp only [List.foldl_cons, List.length_cons]
    omega

theorem length_hashSetOfList {α : Type} [DecidableEq α] (l : List α) :
    (hashSetOfList l).length ≤ l.length := by
  have := length_foldl_hashSetInsert l ([] : List α)
  simpa [hashSetOfList] using this

theorem windows3_length : ∀ l : List Char, (windows3 l).length = l.length - 2
  | [] => rfl
  | [_] => rfl
  | [_, _] => rfl
  | _ :: b :: c :: rest => by
    have ih := windows3_length (b :: c :: rest)
    simp [windows3, ih]

theorem alistLookup_alistInsert_self {K V : Type} [DecidableEq K]
    (m : List (K × V)) (k : K) (v : V) :
    alistLookup (alistInsert m k v) k = some v := by
  induction m with
  | nil => simp [alistInsert, alistLookup]
  | cons hd tl ih =>
    obtain ⟨k2, v2⟩ := hd
    by_cases h : k2 = k <;> simp [alistInsert, alistLookup, h, ih]

theorem alistLookup_alistInsert_ne {K V : Type} [DecidableEq K]
    (m : List (K × V)) (k key : K) (v : V) (hne : key ≠ k) :
    alistLookup (alistInsert m key v) k = alistLookup m k := by
  induction m with
  | nil => simp [alistInsert, alistLookup, hne]
  | cons hd tl ih =>
    obtain ⟨k2, v2⟩ := hd
    by_cases h : k2 = key
    · subst h
      simp [alistInsert, alistLookup, hne]
    · by_cases h2 : k2 = k
      · subst h2
        simp [alistInsert, alistLookup, h]
      · simp [alistInsert, alistLookup, h, h2, ih]

theorem alistLookup_alistErase_ne {K V : Type} [DecidableEq K]
    (m : List (K × V)) (k key : K) (hne : key ≠ k) :
    alistLookup (alistErase m key) k = alistLookup m k := by
  induction m with
  | nil => simp [alistErase]
  | cons hd tl ih =>
    obtain ⟨k2, v2⟩ := hd
    by_cases h : k2 = key
    · subst h
      simp [alistErase, alistLookup, hne]
    · by_cases h2 : k2 = k
      · subst h2
        simp [alistErase, alistLookup, h]
      · simp [alistErase, alistLookup, h, h2, ih]

theorem alistLookup_alistErase_none {K V : Type} [DecidableEq K]
    (m : List (K × V)) (k key : K) (h : alistLookup m k = none) :
    alistLookup (alistErase m key) k = none := by
  induction m with
  | nil => simp [alistErase, alistLookup]
  | cons hd tl ih =>
    obtain ⟨k2, v2⟩ := hd
    simp only [alistLookup] at h
    by_cases h2 : k2 = k
    · simp [h2] at h
    · simp only [if_neg h2] at h
      by_cases h3 : k2 = key
      · subst h3
        simpa [alistErase] using h
      · simp [alistErase, alistLookup, h2, h3, ih h]

theorem alistLookup_append_some {K V : Type} [DecidableEq K]
    (m l : List (K × V)) (k : K) (v : V) (h : alistLookup m k = some v) :
    alistLookup (m ++ l) k = some v := by
  induction m with
  | nil => simp [alistLookup] at h
  | cons hd tl ih =>
    obtain ⟨k2, v2⟩ := hd
    simp only [alistLookup] at h ⊢
    by_cases h2 : k2 = k <;> simp [h2] at h ⊢ <;> simp_all [ih]

theorem alistLookup_append_none {K V : Type} [DecidableEq K]
    (m l : List (K × V)) (k : K) (h : alistLookup m k = none) :
    alistLookup (m ++ l) k = alistLookup l k := by
  induction m with
  | nil => simp
  | cons hd tl ih =>
    obtain ⟨k2, v2⟩ := hd
    simp only [alistLookup] at h ⊢
    by_cases h2 : k2 = k <;> simp [h2] at h ⊢ <;> simp_all [ih]

theorem alistLookup_eq_of_mem_nodup {K V : Type} [DecidableEq K]
    (m : List (K × V)) (k : K) (e : V)
    (hmem : (k, e) ∈ m) (hnd : (m.map Prod.fst).Nodup) :
    alistLookup m k = some e := by
  induction m with
  | nil => simp at hmem
  | cons hd tl ih =>
    obtain ⟨k2, v2⟩ := hd
    simp only [List.map_cons, List.nodup_cons] at hnd
    rcases List.mem_cons.mp hmem with h | h
    · obtain ⟨hk, hv⟩ := Prod.mk.injEq .. ▸ h
      simp [alistLookup, hk.symm, hv]
    · have hk2 : k2 ≠ k := by
        intro hk
        exact hnd.1 (hk ▸ List.mem_map_of_mem Prod.fst h)
      simp [alistLookup, hk2, ih h hnd.2]

/-! ### C3: trigram count law -/

/-- C3, counterexample: the token `a` has length 1, but the generator
produces two windows (`$$a` and `$a$`) and a trigram set of size 2, so
the claimed count of exactly `n` windows and at most `n` set elements
fails. -/
theorem C3_counterexample :
    ¬ ((generate_trigrams_list "a").length = "a".length ∧
       (generate_trigrams "a").length ≤ "a".length) := by
  decide

/-- C3 (amended): for a non-empty normalised token of length n, the
trigram generator produces exactly n + 1 windows before de-duplication
(the padding adds two leading sentinels and one trailing sentinel), and
the de-duplicated trigram set has cardinality at most n + 1. -/
theorem C3_trigram_count (t : String)
    (hnorm : normalize_text t = t) (hne : t ≠ "") :
    (generate_trigrams_list t).length = t.length + 1 ∧
    (generate_trigrams t).length ≤ t.length + 1 := by
  have hlist : (generate_trigrams_list t).length = t.length + 1 := by
    unfold generate_trigrams_list
    rw [hnorm, if_neg hne, windows3_length]
    have hd : ("$$" ++ t ++ "$").data = "$$".data ++ t.data ++ "$".data := by
      rw [String.data_append, String.data_append]
    rw [hd]
    have hne2 : t.data ≠ [] := fun h => hne (congrArg String.mk h)
    simp only [List.length_append]
    have : 0 < t.data.length := List.length_pos.mpr hne2
    show "$$".data.length + t.data.length + "$".data.length - 2 = t.length + 1
    have h2 : "$$".data.length = 2 := rfl
    have h1 : "$".data.length = 1 := rfl
    have hlen : t.length = t.data.length := rfl
    omega
  exact ⟨hlist, le_trans (length_hashSetOfList _) (le_of_eq hlist)⟩

/-- C3, witness: the amended count law evaluated at the token `apple`:
six windows and at most six distinct trigrams. -/
theorem C3_trigram_count_witness :
    (normalize_text "apple" = "apple" ∧ "apple" ≠ "") ∧
    (generate_trigrams_list "apple").length = "apple".length + 1 ∧
    (generate_trigrams "apple").length ≤ "apple".length + 1 :=
  ⟨⟨by decide, by decide⟩, C3_trigram_count "apple" (by decide) (by decide)⟩

/-! ### C8: concrete trigram sets -/

/-- C8: the trigram set of `apple` is exactly
`$$a, $ap, app, ppl, ple, le$` (six elements, listed in generation
order with no duplicates), and the trigram set of `a` is exactly
`$$a, $a$` (two elements). -/
theorem C8_concrete_trigrams :
    generate_trigrams "apple" = ["$$a", "$ap", "app", "ppl", "ple", "le$"] ∧
    (generate_trigrams "apple").length = 6 ∧
    generate_trigrams "a" = ["$$a", "$a$"] ∧
    (generate_trigrams "a").length = 2 := by
  decide

/-! ### C9: interner round-trip and idempotence -/

/-- C9: on any well-formed interner state, `get` after `intern` returns
the interned string, and interning the same string again returns the
same id with the state unchanged (no new allocation). -/
theorem C9_intern_roundtrip (st : StringInterner) (s : String)
    (hwf : InternerWF st) :
    (st.intern s).2.get (st.intern s).1 = some s ∧
    (st.intern s).2.intern s = st.intern s := by
  cases h : alistLookup st.string_to_id s with
  | some id =>
    constructor
    · simp only [StringInterner.intern, h, StringInterner.get]
      exact hwf s id h
    · simp only [StringInterner.intern, h]
  | none =>
    constructor
    · simp only [StringInterner.intern, h, StringInterner.get]
      exact alistLookup_alistInsert_self ..
    · simp only [StringInterner.intern, h, alistLookup_alistInsert_self]

/-- C9, witness: the round-trip and idempotence evaluated on a fresh
interner and the string `hello`. -/
theorem C9_intern_roundtrip_witness :
    (StringInterner.new.intern "hello").2.get
        (StringInterner.new.intern "hello").1 = some "hello" ∧
    ((StringInterner.new.intern "hello").2.intern "hello" =
        StringInterner.new.intern "hello") :=
  C9_intern_roundtrip StringInterner.new "hello"
    (by intro s id h; simp [StringInterner.new, alistLookup] at h)

/-! ### C5: remove_document error and effect -/

/-- C5: `remove_document` fails with `DocumentNotFound` exactly when the
document is absent; when the document is present, the result drops the
interned doc id from every inverted posting, drops postings that became
empty, removes the document from the document map, and leaves the
trigram index, the interner and the configured fields unchanged. -/
theorem C5_remove_document_spec (idx : Index) (doc_id : String) :
    (idx.remove_document doc_id = .error (.documentNotFound doc_id) ↔
      idx.docPresent doc_id = false) ∧
    (∀ i2, idx.remove_document doc_id = .ok i2 →
      i2.trigram_index = idx.trigram_index ∧
      i2.interner = idx.interner ∧
      i2.indexed_fields = idx.indexed_fields ∧
      ∃ did, idx.interner.get_id doc_id = some did ∧
        i2.documents = alistErase idx.documents did ∧
        i2.inverted_index =
          (idx.inverted_index.map fun p =>
            (p.1, p.2.filter fun id => id ≠ did)).filter
              fun p => !p.2.isEmpty) := by
  unfold Index.remove_document Index.docPresent
  cases h : idx.interner.get_id doc_id with
  | none => simp
  | some did =>
    by_cases hp : (alistLookup idx.documents did).isSome
    · simp only [hp, if_true, Bool.not_eq_false]
      constructor
      · simp [hp]
      · intro i2 h2
        obtain rfl := (Except.ok.injEq .. ▸ h2 : _ = i2)
        exact ⟨rfl, rfl, rfl, did, rfl, rfl, rfl⟩
    · simp [hp]

/-- C5, witness: on the one-document index, removing an unknown id
fails with `DocumentNotFound`, and removing the stored id succeeds with
the trigram index and interner untouched. -/
theorem C5_remove_document_spec_witness :
    (idxApple.docPresent "nope" = false ∧
     idxApple.remove_document "nope" = .error (.documentNotFound "nope")) ∧
    (idxApple.remove_document "x" = .ok idxAppleRemoved ∧
     idxAppleRemoved.trigram_index = idxApple.trigram_index ∧
     idxAppleRemoved.interner = idxApple.interner) := by
  have hok : idxApple.remove_document "x" = .ok idxAppleRemoved := by
    with_unfolding_all rfl
  have h := (C5_remove_document_spec idxApple "x").2 idxAppleRemoved hok
  exact ⟨⟨by decide, (C5_remove_document_spec idxApple "nope").1.mpr (by decide)⟩,
    hok, h.1, h.2.1⟩

/-! ### C7: which field values contribute tokens -/

/-- C7, counterexample: a document whose only field is JSON null
contributes the token `null` to the index (the document is retrievable
through that token), yet the string/number/boolean contribution map of
the claim yields nothing for it. -/
theorem C7_counterexample :
    docNull.fields.filterMap (fun p => specScalarText p.2) = [] ∧
    docNull.get_all_text_fields = ["null"] ∧
    (Index.new.add_document docNull).get_documents_for_token "null" = ["d"] := by
  decide

/-- C7 (amended): with the indexed-fields set empty, exactly the string
field values plus the string coercions of number, boolean and null
field values contribute tokens; array and object field values
contribute none, and the document is stored verbatim, array and object
fields included. -/
theorem C7_scalar_fields_indexed (d : Document) (idx : Index)
    (hf : idx.indexed_fields = []) :
    d.get_all_text_fields =
      d.fields.filterMap (fun p => specScalarTextAmended p.2) ∧
    idx.tokensOf d =
      hashSetOfList
        ((d.fields.filterMap (fun p => specScalarTextAmended p.2)).flatMap
          extract_tokens) ∧
    alistLookup (idx.add_document d).documents
      (idx.interner.intern d.id).1 = some d := by
  have h1 : d.get_all_text_fields =
      d.fields.filterMap (fun p => specScalarTextAmended p.2) := by
    unfold Document.get_all_text_fields
    apply List.filterMap_congr
    intro p _
    cases h : p.2 <;> rfl
  refine ⟨h1, ?_, ?_⟩
  · unfold Index.tokensOf
    rw [if_pos hf, h1]
  · exact alistLookup_alistInsert_self ..

/-- C7, witness: the amended contribution law evaluated on a document
mixing an array field with a string field, added to a fresh index. -/
theorem C7_scalar_fields_indexed_witness :
    docMixed.get_all_text_fields =
      docMixed.fields.filterMap (fun p => specScalarTextAmended p.2) ∧
    Index.new.tokensOf docMixed =
      hashSetOfList
        ((docMixed.fields.filterMap (fun p => specScalarTextAmended p.2)).flatMap
          extract_tokens) ∧
    alistLookup (Index.new.add_document docMixed).documents
      (Index.new.interner.intern docMixed.id).1 = some docMixed :=
  C7_scalar_fields_indexed docMixed Index.new rfl

/-! ### C6: shape of the search result list -/

theorem sorted_rankAndTruncate (options : SearchOptionsInternal)
    (results : List SearchResult) :
    List.Sorted resultOrder (rankAndTruncate options results) := by
  unfold rankAndTruncate
  have hs := List.sorted_insertionSort resultOrder results
  dsimp only
  split
  · exact List.Pairwise.sublist (List.take_sublist _ _) hs
  · exact hs

theorem mem_rankAndTruncate (options : SearchOptionsInternal)
    (results : List SearchResult) (r : SearchResult)
    (h : r ∈ rankAndTruncate options results) : r ∈ results := by
  unfold rankAndTruncate at h
  dsimp only at h
  have hmem : r ∈ List.insertionSort resultOrder results := by
    split at h
    · exact List.take_subset _ _ h
    · exact h
  exact (List.perm_insertionSort resultOrder results).mem_iff.mp hmem

theorem length_rankAndTruncate (options : SearchOptionsInternal)
    (results : List SearchResult) :
    (rankAndTruncate options results).length ≤ options.limit := by
  unfold rankAndTruncate
  dsimp only
  split
  · simp [List.length_take]
  · omega

theorem score_of_mem_thresholdFilter (idx : Index)
    (options : SearchOptionsInternal) (document_scores : List (String × ℚ))
    (r : SearchResult) (h : r ∈ thresholdFilter idx options document_scores) :
    ¬ r.score < options.score_threshold := by
  unfold thresholdFilter at h
  obtain ⟨p, _, hf⟩ := List.mem_filterMap.mp h
  by_cases hc : p.2 < options.score_threshold
  · simp [hc] at hf
  · simp only [if_neg hc, Option.map_eq_some'] at hf
    obtain ⟨doc, _, rfl⟩ := hf
    exact hc

/-- C6: for every index, query and options, the search result list is
sorted by score descending with ties broken by doc id ascending,
contains no entry whose accumulated score is strictly below the score
threshold, and has length at most the limit. -/
theorem C6_search_result_shape (idx : Index) (query : String)
    (options : SearchOptionsInternal) :
    List.Sorted resultOrder (idx.search_internal query options) ∧
    (∀ r ∈ idx.search_internal query options,
      ¬ r.score < options.score_threshold) ∧
    (idx.search_internal query options).length ≤ options.limit := by
  unfold Index.search_internal
  by_cases hq : extract_tokens query = []
  · simp [hq]
  · simp only [if_neg hq]
    exact ⟨sorted_rankAndTruncate _ _,
      fun r hr => score_of_mem_thresholdFilter _ _ _ r
        (mem_rankAndTruncate _ _ r hr),
      length_rankAndTruncate _ _⟩

/-- C6, witness: the shape law evaluated on the one-document index with
default internal options; the single returned result has score 10,
which is not below the threshold 0. -/
theorem C6_search_result_shape_witness :
    List.Sorted resultOrder
      (idxApple.search_internal "apple"
        { max_distance := 2, score_threshold := 0, limit := 100 }) ∧
    ¬ resX.score <
      ({ max_distance := 2, score_threshold := 0, limit := 100 } :
        SearchOptionsInternal).score_threshold ∧
    (idxApple.search_internal "apple"
      { max_distance := 2, score_threshold := 0, limit := 100 }).length ≤ 100 := by
  have h := C6_search_result_shape idxApple "apple"
    { max_distance := 2, score_threshold := 0, limit := 100 }
  have hlist : idxApple.search_internal "apple"
      { max_distance := 2, score_threshold := 0, limit := 100 } = [resX] := by
    with_unfolding_all rfl
  exact ⟨h.1, h.2.1 resX (hlist ▸ List.mem_singleton.mpr rfl), h.2.2⟩

/-! ### C2: re-insert versus remove-then-add -/

/-- C2: evaluating the two states at the failing input.  After
`add docXApple; add docXBanana` (same id `x`), the query `apple` still
returns the document, because `add_document` leaves the stale `apple`
posting in place; after `add docXApple; remove x; add docXBanana` the
same query returns nothing.  The two states are therefore not
observationally equal, refuting remove-then-add semantics for
re-insertion. -/
theorem C2_reinsert_differs_from_remove_then_add :
    ((idxApple.add_document docXBanana).search "apple" none).map
        (fun r => r.document.id) = ["x"] ∧
    (idxApple.remove_document "x").map
        (fun i => ((i.add_document docXBanana).search "apple" none).length) =
      .ok 0 :=
  ⟨by with_unfolding_all rfl, by with_unfolding_all rfl⟩

/-! ### LRU cache lemmas -/

theorem map_fst_alistErase_sublist {K V : Type} [DecidableEq K]
    (m : List (K × V)) (k : K) :
    ((alistErase m k).map Prod.fst).Sublist (m.map Prod.fst) := by
  induction m with
  | nil => simp [alistErase]
  | cons hd tl ih =>
    obtain ⟨k2, v2⟩ := hd
    by_cases h : k2 = k
    · simp only [alistErase, if_pos h]
      exact (List.sublist_cons_self _ _).trans (List.Sublist.refl _)
    · simp only [alistErase, if_neg h, List.map_cons]
      exact ih.cons₂ k2

theorem nodup_alistErase {K V : Type} [DecidableEq K]
    (m : List (K × V)) (k : K) (hnd : (m.map Prod.fst).Nodup) :
    ((alistErase m k).map Prod.fst).Nodup :=
  hnd.sublist (map_fst_alistErase_sublist m k)

theorem alistLookup_eq_none_of_not_mem_keys {K V : Type} [DecidableEq K]
    (m : List (K × V)) (k : K) (h : k ∉ m.map Prod.fst) :
    alistLookup m k = none := by
  induction m with
  | nil => rfl
  | cons hd tl ih =>
    obtain ⟨k2, v2⟩ := hd
    simp only [List.map_cons, List.mem_cons, not_or] at h
    have h2 : k2 ≠ k := fun hh => h.1 hh.symm
    simp [alistLookup, h2, ih h.2]

theorem alistLookup_alistErase_self_of_nodup {K V : Type} [DecidableEq K]
    (m : List (K × V)) (k : K) (hnd : (m.map Prod.fst).Nodup) :
    alistLookup (alistErase m k) k = none := by
  induction m with
  | nil => rfl
  | cons hd tl ih =>
    obtain ⟨k2, v2⟩ := hd
    simp only [List.map_cons, List.nodup_cons] at hnd
    by_cases h : k2 = k
    · subst h
      simp only [alistErase, if_pos rfl]
      exact alistLookup_eq_none_of_not_mem_keys tl k2 hnd.1
    · simp [alistErase, alistLookup, h, ih hnd.2]

theorem evictRemoveStep_size_le {K V : Type} [DecidableEq K]
    (st : List (K × LruEntry V) × Nat) (k : K) :
    (evictRemoveStep st k).2 ≤ st.2 := by
  unfold evictRemoveStep
  cases alistLookup st.1 k
  · exact le_refl _
  · exact Nat.sub_le _ _

theorem foldl_evictRemoveStep_size_le {K V : Type} [DecidableEq K] :
    ∀ (keys : List K) (st : List (K × LruEntry V) × Nat),
      (keys.foldl evictRemoveStep st).2 ≤ st.2
  | [], st => le_refl _
  | k :: rest, st =>
    le_trans (foldl_evictRemoveStep_size_le rest (evictRemoveStep st k))
      (evictRemoveStep_size_le st k)

theorem foldl_evictRemoveStep_lookup_none {K V : Type} [DecidableEq K] :
    ∀ (keys : List K) (st : List (K × LruEntry V) × Nat) (k : K),
      alistLookup st.1 k = none →
      alistLookup (keys.foldl evictRemoveStep st).1 k = none
  | [], _, _, h => h
  | k2 :: rest, st, k, h => by
    apply foldl_evictRemoveStep_lookup_none rest
    unfold evictRemoveStep
    cases alistLookup st.1 k2
    · exact h
    · exact alistLookup_alistErase_none _ _ _ h

theorem foldl_evictRemoveStep_lookup_notin {K V : Type} [DecidableEq K] :
    ∀ (keys : List K) (st : List (K × LruEntry V) × Nat) (k : K),
      k ∉ keys →
      alistLookup (keys.foldl evictRemoveStep st).1 k = alistLookup st.1 k
  | [], _, _, _ => rfl
  | k2 :: rest, st, k, h => by
    have hne : k2 ≠ k := by
      rintro rfl
      exact h (List.mem_cons_self _ _)
    have hrest : k ∉ rest := fun hh => h (List.mem_cons_of_mem _ hh)
    rw [List.foldl_cons, foldl_evictRemoveStep_lookup_notin rest _ k hrest]
    unfold evictRemoveStep
    cases alistLookup st.1 k2
    · rfl
    · exact alistLookup_alistErase_ne _ _ _ hne

theorem nodup_evictRemoveStep {K V : Type} [DecidableEq K]
    (st : List (K × LruEntry V) × Nat) (k : K)
    (hnd : (st.1.map Prod.fst).Nodup) :
    (((evictRemoveStep st k).1).map Prod.fst).Nodup := by
  unfold evictRemoveStep
  cases alistLookup st.1 k
  · exact hnd
  · exact nodup_alistErase _ _ hnd

theorem foldl_evictRemoveStep_lookup_some {K V : Type} [DecidableEq K] :
    ∀ (keys : List K) (st : List (K × LruEntry V) × Nat) (k : K)
      (e2 : LruEntry V), (st.1.map Prod.fst).Nodup →
      alistLookup (keys.foldl evictRemoveStep st).1 k = some e2 →
      alistLookup st.1 k = some e2
  | [], _, _, _, _, h => h
  | k2 :: rest, st, k, e2, hnd, h => by
    rw [List.foldl_cons] at h
    have h2 := foldl_evictRemoveStep_lookup_some rest _ k e2
      (nodup_evictRemoveStep st k2 hnd) h
    unfold evictRemoveStep at h2
    cases h3 : alistLookup st.1 k2 with
    | none =>
      rw [h3] at h2
      exact h2
    | some ent =>
      rw [h3] at h2
      by_cases hkk : k2 = k
      · subst hkk
        rw [alistLookup_alistErase_self_of_nodup _ _ hnd] at h2
        cases h2
      · rw [alistLookup_alistErase_ne _ _ _ hkk] at h2
        exact h2

theorem collectEvict_ref0 {K V : Type} :
    ∀ (l : List (K × LruEntry V)) (need freed : Nat) (k : K),
      k ∈ collectEvict l need freed → ∃ e, (k, e) ∈ l ∧ e.refCount = 0
  | [], _, _, _ => by simp [collectEvict]
  | (k2, e2) :: rest, need, freed, k => by
    intro hk
    unfold collectEvict at hk
    split at hk
    · obtain ⟨e, hmem, h0⟩ := collectEvict_ref0 rest need freed k hk
      exact ⟨e, List.mem_cons_of_mem _ hmem, h0⟩
    · rename_i hpin
      split at hk
      · rw [List.mem_singleton.mp hk]
        exact ⟨e2, List.mem_cons_self _ _, by omega⟩
      · rcases List.mem_cons.mp hk with h | h
        · subst h
          exact ⟨e2, List.mem_cons_self _ _, by omega⟩
        · obtain ⟨e, hmem, h0⟩ := collectEvict_ref0 rest need _ k h
          exact ⟨e, List.mem_cons_of_mem _ hmem, h0⟩

theorem evictEntries_size_le {K V : Type} [DecidableEq K]
    (entries : List (K × LruEntry V)) (cur mx needed : Nat) :
    (evictEntries entries cur mx needed).2 ≤ cur := by
  unfold evictEntries
  dsimp only
  split
  · exact le_refl _
  · exact foldl_evictRemoveStep_size_le _ (entries, cur)

theorem evictEntries_lookup_none {K V : Type} [DecidableEq K]
    (entries : List (K × LruEntry V)) (cur mx needed : Nat) (k : K)
    (h : alistLookup entries k = none) :
    alistLookup (evictEntries entries cur mx needed).1 k = none := by
  unfold evictEntries
  dsimp only
  split
  · exact h
  · exact foldl_evictRemoveStep_lookup_none _ (entries, cur) k h

theorem evictEntries_lookup_some {K V : Type} [DecidableEq K]
    (entries : List (K × LruEntry V)) (cur mx needed : Nat) (k : K)
    (e2 : LruEntry V) (hnd : (entries.map Prod.fst).Nodup)
    (h : alistLookup (evictEntries entries cur mx needed).1 k = some e2) :
    alistLookup entries k = some e2 := by
  unfold evictEntries at h
  dsimp only at h
  split at h
  · exact h
  · exact foldl_evictRemoveStep_lookup_some _ (entries, cur) k e2 hnd h

theorem evictEntries_preserves_pinned {K V : Type} [DecidableEq K]
    (entries : List (K × LruEntry V)) (cur mx needed : Nat) (k2 : K)
    (e2 : LruEntry V) (hnd : (entries.map Prod.fst).Nodup)
    (hl : alistLookup entries k2 = some e2) (hpin : 0 < e2.refCount) :
    alistLookup (evictEntries entries cur mx needed).1 k2 = some e2 := by
  unfold evictEntries
  dsimp only
  split
  · exact hl
  · rw [foldl_evictRemoveStep_lookup_notin _ (entries, cur) k2 ?_]
    · exact hl
    · intro hk
      obtain ⟨e, hmem, h0⟩ := collectEvict_ref0 _ _ _ _ hk
      have hmem2 : (k2, e) ∈ entries :=
        (List.perm_insertionSort _ entries).mem_iff.mp hmem
      have h3 := alistLookup_eq_of_mem_nodup entries k2 e hmem2 hnd
      have he : e2 = e := Option.some.inj (hl.symm.trans h3)
      rw [he, h0] at hpin
      omega

theorem alistLookup_cons_ne {K V : Type} [DecidableEq K]
    (k2 k : K) (v : V) (m : List (K × V)) (h : k2 ≠ k) :
    alistLookup ((k2, v) :: m) k = alistLookup m k := by
  simp [alistLookup, h]

theorem alistLookup_mem {K V : Type} [DecidableEq K]
    (m : List (K × V)) (k : K) (e : V) (h : alistLookup m k = some e) :
    (k, e) ∈ m := by
  induction m with
  | nil => cases h
  | cons hd tl ih =>
    obtain ⟨k2, v2⟩ := hd
    by_cases h2 : k2 = k
    · subst h2
      simp only [alistLookup, if_pos rfl] at h
      obtain rfl := Option.some.inj h
      exact List.mem_cons_self _ _
    · rw [alistLookup_cons_ne _ _ _ _ h2] at h
      exact List.mem_cons_of_mem _ (ih h)

theorem alistLookup_isSome_of_mem_keys {K V : Type} [DecidableEq K]
    (m : List (K × V)) (k : K) (h : k ∈ m.map Prod.fst) :
    (alistLookup m k).isSome := by
  induction m with
  | nil => simp at h
  | cons hd tl ih =>
    obtain ⟨k2, v2⟩ := hd
    by_cases h2 : k2 = k
    · simp [alistLookup, h2]
    · rw [alistLookup_cons_ne _ _ _ _ h2]
      simp only [List.map_cons, List.mem_cons] at h
      exact ih (h.resolve_left fun hh => h2 hh.symm)

theorem alistLookup_eq_of_perm_nodup {K V : Type} [DecidableEq K]
    (m m2 : List (K × V)) (hperm : m.Perm m2)
    (hnd2 : (m2.map Prod.fst).Nodup) (k : K) :
    alistLookup m k = alistLookup m2 k := by
  cases h : alistLookup m k with
  | some e =>
    exact (alistLookup_eq_of_mem_nodup m2 k e
      (hperm.mem_iff.mp (alistLookup_mem _ _ _ h)) hnd2).symm
  | none =>
    cases h2 : alistLookup m2 k with
    | none => rfl
    | some e2 =>
      have hmem : (k, e2) ∈ m := hperm.mem_iff.mpr (alistLookup_mem _ _ _ h2)
      have hsome := alistLookup_isSome_of_mem_keys m k
        (List.mem_map_of_mem Prod.fst hmem)
      rw [h] at hsome
      cases hsome

theorem sizeOfKeys_congr {K V : Type} [DecidableEq K]
    (m m2 : List (K × LruEntry V)) :
    ∀ ks, (∀ k ∈ ks, alistLookup m k = alistLookup m2 k) →
      sizeOfKeys m ks = sizeOfKeys m2 ks
  | [], _ => rfl
  | k :: rest, h => by
    unfold sizeOfKeys
    rw [h k (List.mem_cons_self _ _),
      sizeOfKeys_congr m m2 rest fun k2 hk2 => h k2 (List.mem_cons_of_mem _ hk2)]

theorem collectEvict_subset_keys {K V : Type}
    (l : List (K × LruEntry V)) (need freed : Nat) (k : K)
    (h : k ∈ collectEvict l need freed) : k ∈ l.map Prod.fst := by
  obtain ⟨e, hmem, _⟩ := collectEvict_ref0 l need freed k h
  exact List.mem_map_of_mem Prod.fst hmem

theorem collectEvict_nodup {K V : Type} :
    ∀ (l : List (K × LruEntry V)) (need freed : Nat),
      (l.map Prod.fst).Nodup → (collectEvict l need freed).Nodup
  | [], _, _, _ => by simp [collectEvict]
  | (kh, eh) :: rest, need, freed, hnd => by
    simp only [List.map_cons, List.nodup_cons] at hnd
    unfold collectEvict
    by_cases hpin : 0 < eh.refCount
    · rw [if_pos hpin]
      exact collectEvict_nodup rest _ _ hnd.2
    · rw [if_neg hpin]
      by_cases hbr : need ≤ freed + eh.size
      · rw [if_pos hbr]
        simp
      · rw [if_neg hbr]
        refine List.nodup_cons.mpr ⟨?_, collectEvict_nodup rest _ _ hnd.2⟩
        intro hk
        exact hnd.1 (collectEvict_subset_keys rest _ _ _ hk)

theorem collectEvict_freed {K V : Type} [DecidableEq K] :
    ∀ (l : List (K × LruEntry V)) (need freed : Nat),
      (l.map Prod.fst).Nodup →
      min need (freed + unpinnedSize l) ≤
        freed + sizeOfKeys l (collectEvict l need freed)
  | [], need, freed, _ => by
    simpa [collectEvict, unpinnedSize, sizeOfKeys] using min_le_right need freed
  | (kh, eh) :: rest, need, freed, hnd => by
    have hnd2 : (rest.map Prod.fst).Nodup :=
      (List.nodup_cons.mp (by simpa using hnd)).2
    have hkh : kh ∉ rest.map Prod.fst :=
      (List.nodup_cons.mp (by simpa using hnd)).1
    have hup : unpinnedSize ((kh, eh) :: rest) =
        (if eh.refCount = 0 then eh.size else 0) + unpinnedSize rest := by
      simp [unpinnedSize]
    unfold collectEvict
    by_cases hpin : 0 < eh.refCount
    · rw [if_pos hpin]
      have ih := collectEvict_freed rest need freed hnd2
      have hne : kh ∉ collectEvict rest need freed := fun hk =>
        hkh (collectEvict_subset_keys rest _ _ _ hk)
      have hsk : sizeOfKeys ((kh, eh) :: rest) (collectEvict rest need freed) =
          sizeOfKeys rest (collectEvict rest need freed) :=
        sizeOfKeys_congr _ _ _ fun k hk =>
          alistLookup_cons_ne _ _ _ _ fun hh => hne (hh ▸ hk)
      have h0 : eh.refCount ≠ 0 := by omega
      rw [hup, if_neg h0, hsk]
      omega
    · have h0 : eh.refCount = 0 := by omega
      rw [if_neg hpin]
      by_cases hbr : need ≤ freed + eh.size
      · rw [if_pos hbr]
        have hhead : alistLookup ((kh, eh) :: rest) kh = some eh := by
          simp [alistLookup]
        have : sizeOfKeys ((kh, eh) :: rest) [kh] = eh.size := by
          simp [sizeOfKeys, hhead]
        rw [this]
        omega
      · rw [if_neg hbr]
        have ih := collectEvict_freed rest need (freed + eh.size) hnd2
        have hne : kh ∉ collectEvict rest need (freed + eh.size) := fun hk =>
          hkh (collectEvict_subset_keys rest _ _ _ hk)
        have hhead : alistLookup ((kh, eh) :: rest) kh = some eh := by
          simp [alistLookup]
        have hsk1 : sizeOfKeys ((kh, eh) :: rest)
            (kh :: collectEvict rest need (freed + eh.size)) =
            eh.size + sizeOfKeys ((kh, eh) :: rest)
              (collectEvict rest need (freed + eh.size)) := by
          simp [sizeOfKeys, hhead]
        have hsk2 : sizeOfKeys ((kh, eh) :: rest)
            (collectEvict rest need (freed + eh.size)) =
            sizeOfKeys rest (collectEvict rest need (freed + eh.size)) :=
          sizeOfKeys_congr _ _ _ fun k hk =>
            alistLookup_cons_ne _ _ _ _ fun hh => hne (hh ▸ hk)
        rw [hsk1, hsk2, hup, if_pos h0]
        omega

theorem collectEvict_oldest_first {K V : Type} :
    ∀ (l : List (K × LruEntry V)) (need freed : Nat) (k1 k2 : K)
      (e1 e2 : LruEntry V),
      List.Pairwise lastAccessLe l → (l.map Prod.fst).Nodup →
      (k1, e1) ∈ l → (k2, e2) ∈ l →
      e1.refCount = 0 → e1.lastAccess < e2.lastAccess →
      k2 ∈ collectEvict l need freed → k1 ∈ collectEvict l need freed
  | [], _, _, _, _, _, _, _, _, hm1, _, _, _, _ => by cases hm1
  | (kh, eh) :: rest, need, freed, k1, k2, e1, e2,
      hpw, hnd, hm1, hm2, h0, hlt, hk2 => by
    have hpw2 := List.pairwise_cons.mp hpw
    simp only [List.map_cons, List.nodup_cons] at hnd
    unfold collectEvict at hk2 ⊢
    by_cases hpin : 0 < eh.refCount
    · rw [if_pos hpin] at hk2 ⊢
      have hm1r : (k1, e1) ∈ rest := by
        rcases List.mem_cons.mp hm1 with h | h
        · obtain ⟨hk, he⟩ := Prod.mk.injEq .. ▸ h
          rw [he] at h0
          omega
        · exact h
      have hm2r : (k2, e2) ∈ rest := by
        rcases List.mem_cons.mp hm2 with h | h
        · obtain ⟨hk, he⟩ := Prod.mk.injEq .. ▸ h
          obtain ⟨e2p, hmem, _⟩ := collectEvict_ref0 rest need freed k2 hk2
          exact absurd (hk ▸ List.mem_map_of_mem Prod.fst hmem) hnd.1
        · exact h
      exact collectEvict_oldest_first rest need freed k1 k2 e1 e2
        hpw2.2 hnd.2 hm1r hm2r h0 hlt hk2
    · rw [if_neg hpin] at hk2 ⊢
      have he2eh : k2 = kh → e2 = eh := by
        intro hk
        rcases List.mem_cons.mp hm2 with h | h
        · exact (Prod.mk.injEq .. ▸ h).2
        · exact absurd (hk ▸ List.mem_map_of_mem Prod.fst h) hnd.1
      by_cases hbr : need ≤ freed + eh.size
      · rw [if_pos hbr] at hk2 ⊢
        have hkkh : k2 = kh := List.mem_singleton.mp hk2
        have he2 : e2 = eh := he2eh hkkh
        exfalso
        rcases List.mem_cons.mp hm1 with h | h
        · obtain ⟨_, he⟩ := Prod.mk.injEq .. ▸ h
          rw [he, he2] at hlt
          omega
        · have h6 : eh.lastAccess ≤ e1.lastAccess := hpw2.1 (k1, e1) h
          rw [he2] at hlt
          omega
      · rw [if_neg hbr] at hk2 ⊢
        rcases List.mem_cons.mp hm1 with h | hm1r
        · obtain ⟨hk, _⟩ := Prod.mk.injEq .. ▸ h
          exact hk ▸ List.mem_cons_self _ _
        · rcases List.mem_cons.mp hk2 with hk | hk
          · exfalso
            have he2 : e2 = eh := he2eh hk
            have h6 : eh.lastAccess ≤ e1.lastAccess := hpw2.1 (k1, e1) hm1r
            rw [he2] at hlt
            omega
          · have hm2r : (k2, e2) ∈ rest := by
              rcases List.mem_cons.mp hm2 with h | h
              · obtain ⟨hk2eq, _⟩ := Prod.mk.injEq .. ▸ h
                obtain ⟨e2p, hmem, _⟩ :=
                  collectEvict_ref0 rest need (freed + eh.size) k2 hk
                exact absurd (hk2eq ▸ List.mem_map_of_mem Prod.fst hmem) hnd.1
              · exact h
            exact List.mem_cons_of_mem _
              (collectEvict_oldest_first rest need (freed + eh.size) k1 k2 e1 e2
                hpw2.2 hnd.2 hm1r hm2r h0 hlt hk)

theorem foldl_evictRemoveStep_size_sub {K V : Type} [DecidableEq K] :
    ∀ (ks : List K) (m : List (K × LruEntry V)) (cur : Nat), ks.Nodup →
      (ks.foldl evictRemoveStep (m, cur)).2 ≤ cur - sizeOfKeys m ks
  | [], m, cur, _ => by simp [sizeOfKeys]
  | k :: rest, m, cur, hnd => by
    obtain ⟨hk, hnd2⟩ := List.nodup_cons.mp hnd
    rw [List.foldl_cons]
    cases h : alistLookup m k with
    | none =>
      have hstep : evictRemoveStep (m, cur) k = (m, cur) := by
        simp [evictRemoveStep, h]
      rw [hstep]
      have ih := foldl_evictRemoveStep_size_sub rest m cur hnd2
      simp only [sizeOfKeys, h]
      omega
    | some e =>
      have hstep : evictRemoveStep (m, cur) k = (alistErase m k, cur - e.size) := by
        simp [evictRemoveStep, h]
      rw [hstep]
      have ih := foldl_evictRemoveStep_size_sub rest
        (alistErase m k) (cur - e.size) hnd2
      have hsk : sizeOfKeys (alistErase m k) rest = sizeOfKeys m rest :=
        sizeOfKeys_congr _ _ _ fun k2 hk2 =>
          alistLookup_alistErase_ne _ _ _ fun hh => hk (hh ▸ hk2)
      rw [hsk] at ih
      simp only [sizeOfKeys, h]
      omega

theorem foldl_evictRemoveStep_lookup_mem_none {K V : Type} [DecidableEq K] :
    ∀ (ks : List K) (st : List (K × LruEntry V) × Nat) (k : K),
      (st.1.map Prod.fst).Nodup → k ∈ ks →
      alistLookup (ks.foldl evictRemoveStep st).1 k = none
  | [], _, _, _, hk => by cases hk
  | k2 :: rest, st, k, hnd, hk => by
    rw [List.foldl_cons]
    by_cases hmem : k ∈ rest
    · exact foldl_evictRemoveStep_lookup_mem_none rest _ k
        (nodup_evictRemoveStep st k2 hnd) hmem
    · obtain rfl : k = k2 := (List.mem_cons.mp hk).resolve_right hmem
      apply foldl_evictRemoveStep_lookup_none
      unfold evictRemoveStep
      cases h : alistLookup st.1 k with
      | none => exact h
      | some e => exact alistLookup_alistErase_self_of_nodup _ _ hnd

theorem evictEntries_until {K V : Type} [DecidableEq K]
    (entries : List (K × LruEntry V)) (cur mx needed : Nat)
    (hnd : (entries.map Prod.fst).Nodup)
    (hen : cur - (mx - needed) ≤ unpinnedSize entries) :
    (evictEntries entries cur mx needed).2 ≤ mx - needed := by
  unfold evictEntries
  dsimp only
  by_cases hstf : cur - (mx - needed) = 0
  · rw [if_pos hstf]
    show cur ≤ mx - needed
    omega
  · rw [if_neg hstf]
    have hperm := List.perm_insertionSort lastAccessLe entries
    have hnds : ((List.insertionSort lastAccessLe entries).map Prod.fst).Nodup :=
      ((hperm.map Prod.fst).nodup_iff).mpr hnd
    have hup : unpinnedSize (List.insertionSort lastAccessLe entries) =
        unpinnedSize entries :=
      List.Perm.sum_eq (hperm.map _)
    have hfreed := collectEvict_freed (List.insertionSort lastAccessLe entries)
      (cur - (mx - needed)) 0 hnds
    have hnodupks := collectEvict_nodup (List.insertionSort lastAccessLe entries)
      (cur - (mx - needed)) 0 hnds
    have hsub := foldl_evictRemoveStep_size_sub
      (collectEvict (List.insertionSort lastAccessLe entries)
        (cur - (mx - needed)) 0) entries cur hnodupks
    have hsk : sizeOfKeys entries
        (collectEvict (List.insertionSort lastAccessLe entries)
          (cur - (mx - needed)) 0) =
        sizeOfKeys (List.insertionSort lastAccessLe entries)
          (collectEvict (List.insertionSort lastAccessLe entries)
            (cur - (mx - needed)) 0) :=
      sizeOfKeys_congr _ _ _ fun k _ =>
        (alistLookup_eq_of_perm_nodup _ _ hperm hnd k).symm
    rw [hsk] at hsub
    omega

theorem evictEntries_oldest_first {K V : Type} [DecidableEq K]
    (entries : List (K × LruEntry V)) (cur mx needed : Nat)
    (k1 k2 : K) (e1 e2 : LruEntry V)
    (hnd : (entries.map Prod.fst).Nodup)
    (hl1 : alistLookup entries k1 = some e1)
    (hl2 : alistLookup entries k2 = some e2)
    (h0 : e1.refCount = 0) (hlt : e1.lastAccess < e2.lastAccess)
    (hev : alistLookup (evictEntries entries cur mx needed).1 k2 = none) :
    alistLookup (evictEntries entries cur mx needed).1 k1 = none := by
  unfold evictEntries at hev ⊢
  dsimp only at hev ⊢
  by_cases hstf : cur - (mx - needed) = 0
  · rw [if_pos hstf] at hev
    have h5 : alistLookup entries k2 = none := hev
    rw [hl2] at h5
    cases h5
  · rw [if_neg hstf] at hev ⊢
    have hperm := List.perm_insertionSort lastAccessLe entries
    have hnds : ((List.insertionSort lastAccessLe entries).map Prod.fst).Nodup :=
      ((hperm.map Prod.fst).nodup_iff).mpr hnd
    have hpw : List.Pairwise lastAccessLe
        (List.insertionSort lastAccessLe entries) :=
      List.sorted_insertionSort lastAccessLe entries
    have hm1 : (k1, e1) ∈ List.insertionSort lastAccessLe entries :=
      hperm.mem_iff.mpr (alistLookup_mem _ _ _ hl1)
    have hm2 : (k2, e2) ∈ List.insertionSort lastAccessLe entries :=
      hperm.mem_iff.mpr (alistLookup_mem _ _ _ hl2)
    have hk2mem : k2 ∈ collectEvict (List.insertionSort lastAccessLe entries)
        (cur - (mx - needed)) 0 := by
      by_contra hno
      rw [foldl_evictRemoveStep_lookup_notin _ (entries, cur) k2 hno] at hev
      have h5 : alistLookup entries k2 = none := hev
      rw [hl2] at h5
      cases h5
    have hk1mem := collectEvict_oldest_first
      (List.insertionSort lastAccessLe entries) (cur - (mx - needed)) 0
      k1 k2 e1 e2 hpw hnds hm1 hm2 h0 hlt hk2mem
    exact foldl_evictRemoveStep_lookup_mem_none _ (entries, cur) k1 hnd hk1mem

/-! ### C4: size bound and eviction discipline of put -/

/-- C4, counterexample: three puts of size 8 into a budget of 10, each
entry pinned by a read before the next put, leave the current size at
24, which exceeds `max_size + size_of(most_recent_put) = 18`; the
claimed invariant fails because pinned entries are never evictable and
the counter keeps growing. -/
theorem C4_counterexample :
    ¬ (lruTrace.currentSize ≤ lruTrace.maxSize + 8) := by
  decide

/-- C4 (amended): when the cache is within budget before the put, the
size invariant holds afterwards; the new entry is always inserted (even
when eviction freed nothing); a put never evicts a pinned entry;
eviction is oldest-first by last access (an unpinned entry is evicted
only if every strictly older unpinned entry is evicted too); and a put
of a fresh key that would exceed the budget brings the pre-insertion
size down to `max_size - size_needed` whenever the unpinned entries
hold enough bytes. -/
theorem C4_put_spec {K V : Type} [DecidableEq K] (c : LruCache K V)
    (key : K) (value : V) (size : Nat)
    (hnd : (c.entries.map Prod.fst).Nodup) :
    (c.currentSize ≤ c.maxSize →
      (c.put key value size).currentSize ≤ c.maxSize + size) ∧
    (alistLookup (c.put key value size).entries key).isSome ∧
    (∀ k2 e2, k2 ≠ key → alistLookup c.entries k2 = some e2 →
      0 < e2.refCount →
      alistLookup (c.put key value size).entries k2 = some e2) ∧
    (∀ k1 e1 k2 e2, alistLookup c.entries k1 = some e1 →
      alistLookup c.entries k2 = some e2 →
      e1.refCount = 0 → e1.lastAccess < e2.lastAccess →
      alistLookup (c.put key value size).entries k2 = none →
      alistLookup (c.put key value size).entries k1 = none) ∧
    (alistLookup c.entries key = none →
      c.maxSize < c.currentSize + size →
      c.currentSize - (c.maxSize - size) ≤ unpinnedSize c.entries →
      (c.put key value size).currentSize ≤ (c.maxSize - size) + size) := by
  unfold LruCache.put
  cases h : alistLookup c.entries key with
  | some entry =>
    simp only [h]
    refine ⟨fun hcur => ?_, ?_, ?_, ?_, ?_⟩
    · try dsimp only
      omega
    · try dsimp only
      rw [alistLookup_alistInsert_self]
      rfl
    · intro k2 e2 hne hl hpin
      try dsimp only
      rw [alistLookup_alistInsert_ne _ _ _ _ (Ne.symm hne)]
      exact hl
    · intro k1 e1 k2 e2 hl1 hl2 h10 hlt hev
      exfalso
      try dsimp only at hev
      by_cases hk2 : k2 = key
      · subst hk2
        rw [alistLookup_alistInsert_self] at hev
        cases hev
      · rw [alistLookup_alistInsert_ne _ _ _ _ fun hh => hk2 hh.symm,
          hl2] at hev
        cases hev
    · intro hnone
      cases hnone
  | none =>
    simp only [h]
    try dsimp only
    by_cases hov : c.maxSize < c.currentSize + size
    · simp only [if_pos hov]
      refine ⟨fun hcur => ?_, ?_, ?_, ?_, ?_⟩
      · try dsimp only
        have h1 := evictEntries_size_le c.entries c.currentSize c.maxSize size
        omega
      · try dsimp only
        rw [alistLookup_append_none _ _ _
          (evictEntries_lookup_none _ _ _ _ _ h)]
        simp [alistLookup]
      · intro k2 e2 hne hl hpin
        try dsimp only
        exact alistLookup_append_some _ _ _ _
          (evictEntries_preserves_pinned _ _ _ _ _ _ hnd hl hpin)
      · intro k1 e1 k2 e2 hl1 hl2 h10 hlt hev
        have hk1 : k1 ≠ key := by
          intro hh
          rw [hh, h] at hl1
          cases hl1
        try dsimp only at hev ⊢
        cases hevk : alistLookup
            (evictEntries c.entries c.currentSize c.maxSize size).1 k2 with
        | some v =>
          rw [alistLookup_append_some _ _ _ _ hevk] at hev
          cases hev
        | none =>
          have hold := evictEntries_oldest_first c.entries c.currentSize
            c.maxSize size k1 k2 e1 e2 hnd hl1 hl2 h10 hlt hevk
          rw [alistLookup_append_none _ _ _ hold]
          simp [alistLookup, Ne.symm hk1]
      · intro _ _ hen
        try dsimp only
        exact Nat.add_le_add_right
          (evictEntries_until c.entries c.currentSize c.maxSize size hnd hen)
          size
    · simp only [if_neg hov]
      refine ⟨fun hcur => ?_, ?_, ?_, ?_, ?_⟩
      · try dsimp only
        omega
      · try dsimp only
        rw [alistLookup_append_none _ _ _ h]
        simp [alistLookup]
      · intro k2 e2 hne hl hpin
        try dsimp only
        exact alistLookup_append_some _ _ _ _ hl
      · intro k1 e1 k2 e2 hl1 hl2 h10 hlt hev
        exfalso
        try dsimp only at hev
        rw [alistLookup_append_some _ _ _ _ hl2] at hev
        cases hev
      · intro _ hov2 _
        exact absurd hov2 hov

/-- C4, witness: the amended put law evaluated concretely.  On the
cache holding one pinned entry of size 8 within a budget of 100, a put
of size 4 respects the bound, inserts the new key, and the pinned entry
survives.  On the two-entry cache in a budget of 10, the put of size 8
evicts the newer unpinned entry `b`, so by the oldest-first law the
older unpinned entry `a` is evicted too, and since the unpinned bytes
cover the requirement, the final size is within
`(max_size - size) + size`. -/
theorem C4_put_spec_witness :
    ((lruPinned.currentSize ≤ lruPinned.maxSize ∧
      (lruPinned.put "b" () 4).currentSize ≤ lruPinned.maxSize + 4) ∧
     (alistLookup (lruPinned.put "b" () 4).entries "b").isSome ∧
     alistLookup (lruPinned.put "b" () 4).entries "a" =
       some { value := (), size := 8, lastAccess := 1, refCount := 1 }) ∧
    (alistLookup (lruTwo.put "c" () 8).entries "b" = none ∧
     alistLookup (lruTwo.put "c" () 8).entries "a" = none) ∧
    (lruTwo.put "c" () 8).currentSize ≤ (lruTwo.maxSize - 8) + 8 := by
  have h := C4_put_spec lruPinned "b" () 4 (by decide)
  have h2 := C4_put_spec lruTwo "c" () 8 (by decide)
  refine ⟨⟨⟨by decide, h.1 (by decide)⟩, h.2.1,
    h.2.2.1 "a" { value := (), size := 8, lastAccess := 1, refCount := 1 }
      (by decide) (by decide) (by decide)⟩, ⟨by decide, ?_⟩, ?_⟩
  · exact h2.2.2.2.1 "a" { value := (), size := 4, lastAccess := 0, refCount := 0 }
      "b" { value := (), size := 4, lastAccess := 1, refCount := 0 }
      (by decide) (by decide) (by decide) (by decide) (by decide)
  · exact h2.2.2.2.2 (by decide) (by decide) (by decide)

/-! ### C10: reads pin entries permanently -/

/-- C10: a successful get bumps the reference count by one (saturating
at the `u32` maximum) without changing the value; no operation ever
lowers a reference count; and an entry with a positive reference count
disappears only through a remove of its own key or a clear — in
particular no put can evict it. -/
theorem C10_get_pins_forever {K V : Type} [DecidableEq K]
    (c : LruCache K V) (op : LruOp K V) (k : K) (e : LruEntry V)
    (hnd : (c.entries.map Prod.fst).Nodup)
    (href : e.refCount ≤ u32Max)
    (he : alistLookup c.entries k = some e) :
    (∀ e2, alistLookup ((c.get k).2).entries k = some e2 →
      e2.refCount = min (e.refCount + 1) u32Max ∧ e2.value = e.value) ∧
    (∀ e2, alistLookup (c.step op).entries k = some e2 →
      e.refCount ≤ e2.refCount) ∧
    (0 < e.refCount → alistLookup (c.step op).entries k = none →
      op = .opRemove k ∨ op = .opClear) := by
  refine ⟨?_, ?_, ?_⟩
  · intro e2 h2
    unfold LruCache.get at h2
    simp only [he] at h2
    try dsimp only at h2
    rw [alistLookup_alistInsert_self] at h2
    obtain rfl := Option.some.inj h2
    exact ⟨rfl, rfl⟩
  · intro e2 h2
    cases op with
    | opGet k2 =>
      unfold LruCache.step LruCache.get at h2
      cases h3 : alistLookup c.entries k2 with
      | none =>
        simp only [h3] at h2
        try dsimp only at h2
        rw [he] at h2
        obtain rfl := Option.some.inj h2
        exact le_refl _
      | some ent2 =>
        simp only [h3] at h2
        try dsimp only at h2
        by_cases hkk : k2 = k
        · subst hkk
          obtain rfl : ent2 = e := Option.some.inj (h3.symm.trans he)
          rw [alistLookup_alistInsert_self] at h2
          obtain rfl := Option.some.inj h2
          exact le_min (Nat.le_succ _) href
        · rw [alistLookup_alistInsert_ne _ _ _ _ hkk, he] at h2
          obtain rfl := Option.some.inj h2
          exact le_refl _
    | opPut k2 v s =>
      unfold LruCache.step LruCache.put at h2
      cases h3 : alistLookup c.entries k2 with
      | some ent2 =>
        simp only [h3] at h2
        try dsimp only at h2
        by_cases hkk : k2 = k
        · subst hkk
          obtain rfl : ent2 = e := Option.some.inj (h3.symm.trans he)
          rw [alistLookup_alistInsert_self] at h2
          obtain rfl := Option.some.inj h2
          exact le_refl _
        · rw [alistLookup_alistInsert_ne _ _ _ _ hkk, he] at h2
          obtain rfl := Option.some.inj h2
          exact le_refl _
      | none =>
        have hkk : k2 ≠ k := by
          intro h4
          rw [h4, he] at h3
          cases h3
        simp only [h3] at h2
        try dsimp only at h2
        by_cases hov : c.maxSize < c.currentSize + s
        · rw [if_pos hov] at h2
          cases hst : alistLookup
              (evictEntries c.entries c.currentSize c.maxSize s).1 k with
          | some v2 =>
            rw [alistLookup_append_some _ _ _ _ hst] at h2
            obtain rfl := Option.some.inj h2
            have h5 := evictEntries_lookup_some _ _ _ _ _ _ hnd hst
            obtain rfl : v2 = e := Option.some.inj (h5.symm.trans he)
            exact le_refl _
          | none =>
            rw [alistLookup_append_none _ _ _ hst] at h2
            simp [alistLookup, hkk] at h2
        · rw [if_neg hov] at h2
          rw [alistLookup_append_some _ _ _ _ he] at h2
          obtain rfl := Option.some.inj h2
          exact le_refl _
    | opRemove k2 =>
      unfold LruCache.step LruCache.remove at h2
      cases h3 : alistLookup c.entries k2 with
      | none =>
        simp only [h3] at h2
        rw [he] at h2
        obtain rfl := Option.some.inj h2
        exact le_refl _
      | some ent2 =>
        simp only [h3] at h2
        try dsimp only at h2
        by_cases hkk : k2 = k
        · subst hkk
          rw [alistLookup_alistErase_self_of_nodup _ _ hnd] at h2
          cases h2
        · rw [alistLookup_alistErase_ne _ _ _ hkk, he] at h2
          obtain rfl := Option.some.inj h2
          exact le_refl _
    | opClear =>
      unfold LruCache.step LruCache.clear at h2
      cases h2
  · intro hpin h2
    cases op with
    | opGet k2 =>
      exfalso
      unfold LruCache.step LruCache.get at h2
      cases h3 : alistLookup c.entries k2 with
      | none =>
        simp only [h3] at h2
        try dsimp only at h2
        rw [he] at h2
        cases h2
      | some ent2 =>
        simp only [h3] at h2
        try dsimp only at h2
        by_cases hkk : k2 = k
        · subst hkk
          rw [alistLookup_alistInsert_self] at h2
          cases h2
        · rw [alistLookup_alistInsert_ne _ _ _ _ hkk, he] at h2
          cases h2
    | opPut k2 v s =>
      exfalso
      unfold LruCache.step LruCache.put at h2
      cases h3 : alistLookup c.entries k2 with
      | some ent2 =>
        simp only [h3] at h2
        try dsimp only at h2
        by_cases hkk : k2 = k
        · subst hkk
          rw [alistLookup_alistInsert_self] at h2
          cases h2
        · rw [alistLookup_alistInsert_ne _ _ _ _ hkk, he] at h2
          cases h2
      | none =>
        simp only [h3] at h2
        try dsimp only at h2
        by_cases hov : c.maxSize < c.currentSize + s
        · rw [if_pos hov] at h2
          rw [alistLookup_append_some _ _ _ _
            (evictEntries_preserves_pinned _ _ _ _ _ _ hnd he hpin)] at h2
          cases h2
        · rw [if_neg hov] at h2
          rw [alistLookup_append_some _ _ _ _ he] at h2
          cases h2
    | opRemove k2 =>
      by_cases hkk : k2 = k
      · exact Or.inl (by rw [hkk])
      · exfalso
        unfold LruCache.step LruCache.remove at h2
        cases h3 : alistLookup c.entries k2 with
        | none =>
          simp only [h3] at h2
          rw [he] at h2
          cases h2
        | some ent2 =>
          simp only [h3] at h2
          try dsimp only at h2
          rw [alistLookup_alistErase_ne _ _ _ hkk, he] at h2
          cases h2
    | opClear => exact Or.inr rfl

/-- C10, witness: on the cache whose entry `a` carries reference count
1, a further get returns the entry with reference count 2 (the
saturating increment of 1), and after an unrelated put the surviving
reference count is still at least 1. -/
theorem C10_get_pins_forever_witness :
    alistLookup ((lruPinned.get "a").2).entries "a" =
      some { value := (), size := 8, lastAccess := 2, refCount := 2 } ∧
    ({ value := (), size := 8, lastAccess := 2, refCount := 2 } :
      LruEntry Unit).refCount = min (1 + 1) u32Max ∧
    (1 : Nat) ≤
      ({ value := (), size := 8, lastAccess := 1, refCount := 1 } :
        LruEntry Unit).refCount := by
  have h := C10_get_pins_forever lruPinned (.opPut "b" () 4) "a"
    { value := (), size := 8, lastAccess := 1, refCount := 1 }
    (by decide) (by decide) (by decide)
  refine ⟨by decide, ?_, ?_⟩
  · exact (h.1 { value := (), size := 8, lastAccess := 2, refCount := 2 }
      (by decide)).1
  · exact h.2.1 { value := (), size := 8, lastAccess := 1, refCount := 1 }
      (by decide)

/-! ### C1: the facade query cache is never invalidated -/

/-- C1: evaluating the facade at the failing trace.  On a
storage-backed instance, `search apple` caches the empty result; after
`add_document docD1` (whose title is `apple`), the same search returns
the stale cached empty list, while the ranker against the current
in-memory index returns the document `d1` with score 10. -/
theorem C1_stale_query_cache :
    tcStep1.1 = [] ∧
    tcStep3.1 = [] ∧
    (tcTrace2.index.search "apple" none).map
      (fun r => (r.document.id, r.score)) = [("d1", 10)] :=
  ⟨by with_unfolding_all rfl, by with_unfolding_all rfl,
   by with_unfolding_all rfl⟩

end TigerCacheModel

